import Mathlib

/-!
# go-readability: the utilities and the URL entry points

A shallow embedding of `utils-common.go` (`indexOf`, `wordCount`,
`toAbsoluteURI`) and of `readability.go` (`FromURL`, `FromURLWithConfig`),
followed by the properties proved about them.

Conventions of the embedding.

* A Go `string` is its sequence of bytes, `List Nat` (every byte below 256).
  `str` turns an ASCII literal into that sequence.
* A Go `int` result is an `Int`.
* A run-time panic (a slice out of range, a nil dereference) is the value
  `none` of an `Option`, or the constructor `Outcome.fault`.
* Functions of the Go standard library that the source calls (`strings`,
  `net/url`, `unicode`, `unicode/utf8`) are embedded from the standard
  library's own source (go1.21) and keep their names.
-/

set_option autoImplicit false

namespace Readability

/-! ## Go strings -/

/-- A Go string: its bytes. -/
abbrev GoString := List Nat

/-- The bytes of an ASCII literal. -/
def str (s : String) : GoString := s.toList.map Char.toNat

/-- The slice expression `s[:n]`; `none` is the run-time panic
"slice bounds out of range". -/
def sliceTo (s : GoString) (n : Nat) : Option GoString :=
  if n ≤ s.length then some (s.take n) else none

/-! ## Package `strings` -/

namespace strings

/-- Loop of `strings.Index`: the first position at or after `i` where `sep` starts. -/
def indexFrom (sep : GoString) : GoString → Nat → Int
  | [], i => if sep = [] then (i : Int) else -1
  | c :: rest, i => if sep.isPrefixOf (c :: rest) then (i : Int) else indexFrom sep rest (i + 1)

/-- Go `strings.Index(s, sep)`: index of the first instance of `sep` in `s`, or -1. -/
def Index (s sep : GoString) : Int := indexFrom sep s 0

/-- Loop of `strings.LastIndex`: `best` is the last match seen before position `i`. -/
def lastIndexFrom (sep : GoString) : GoString → Nat → Int → Int
  | [], i, best => if sep = [] then (i : Int) else best
  | c :: rest, i, best =>
    lastIndexFrom sep rest (i + 1) (if sep.isPrefixOf (c :: rest) then (i : Int) else best)

/-- Go `strings.LastIndex(s, sep)`: index of the last instance of `sep` in `s`, or -1. -/
def LastIndex (s sep : GoString) : Int := lastIndexFrom sep s 0 (-1)

/-- Go `strings.Contains(s, sep)`. -/
def Contains (s sep : GoString) : Bool := decide (0 ≤ Index s sep)

/-- Go `strings.Cut(s, sep)`: `(before, after, found)`. -/
def Cut (s sep : GoString) : GoString × GoString × Bool :=
  let i := Index s sep
  if 0 ≤ i then (s.take i.toNat, s.drop (i.toNat + sep.length), true) else (s, [], false)

/-- Go `strings.HasPrefix(s, p)`. -/
def HasPrefix (s p : GoString) : Bool := p.isPrefixOf s

/-- Go `strings.HasSuffix(s, p)`. -/
def HasSuffix (s p : GoString) : Bool := p.isSuffixOf s

/-- Go `strings.Count(s, sep)` for a one-byte `sep`. -/
def CountByte (s : GoString) (c : Nat) : Nat := s.count c

/-- Go `strings.ToLower` on a string of ASCII bytes: `A`-`Z` become `a`-`z`. -/
def ToLower (s : GoString) : GoString :=
  s.map fun c => if 65 ≤ c ∧ c ≤ 90 then c + 32 else c

end strings

/-! ## utils-common.go: `indexOf` -/

/-- The loop of `indexOf`: `rest` is `array[i:]`. -/
def indexOfLoop (key : GoString) : List GoString → Nat → Int
  | [], _ => -1
  | a :: rest, i => if a = key then (i : Int) else indexOfLoop key rest (i + 1)

/-- Go `indexOf(array, key)`: the position of the first occurrence of `key`
in `array`, or -1. -/
def indexOf (array : List GoString) (key : GoString) : Int :=
  indexOfLoop key array 0

/-! ## Package `net/url` -/

namespace nurl

deriving instance DecidableEq for Except

/-- Go `url.Userinfo`. -/
structure Userinfo where
  username : GoString
  password : GoString
  passwordSet : Bool
  deriving DecidableEq, Repr

/-- Go `url.URL`. -/
structure URL where
  Scheme : GoString := []
  Opaque : GoString := []
  User : Option Userinfo := none
  Host : GoString := []
  Path : GoString := []
  RawPath : GoString := []
  OmitHost : Bool := false
  ForceQuery : Bool := false
  RawQuery : GoString := []
  Fragment : GoString := []
  RawFragment : GoString := []
  deriving DecidableEq, Repr

/-- The errors `parse` and `unescape` create (`errors.New`, `EscapeError`,
`InvalidHostError`), kept as values instead of their message text. -/
inductive ParseErr where
  | invalidControlCharacter
  | emptyURL
  | missingProtocolScheme
  | invalidURIForRequest
  | firstPathSegmentColon
  | escapeError (s : GoString)
  | invalidHostError (s : GoString)
  | missingBracket
  | invalidPort (s : GoString)
  | invalidUserinfo
  deriving DecidableEq, Repr

/-- Go `url.Error`: the operation, the URL and the cause. -/
structure Error where
  Op : GoString
  URL : GoString
  Err : ParseErr
  deriving DecidableEq, Repr

/-- Go `url.encoding`. -/
inductive encoding where
  | encodePath
  | encodePathSegment
  | encodeHost
  | encodeZone
  | encodeUserPassword
  | encodeQueryComponent
  | encodeFragment
  deriving DecidableEq, Repr

open encoding

/-- Go `ishex`. -/
def ishex (c : Nat) : Bool :=
  (48 ≤ c && c ≤ 57) || (97 ≤ c && c ≤ 102) || (65 ≤ c && c ≤ 70)

/-- Go `unhex`. -/
def unhex (c : Nat) : Nat :=
  if 48 ≤ c ∧ c ≤ 57 then c - 48
  else if 97 ≤ c ∧ c ≤ 102 then c - 97 + 10
  else if 65 ≤ c ∧ c ≤ 70 then c - 65 + 10
  else 0

/-- Go `upperhex[i]`, the digits of `"0123456789ABCDEF"`. -/
def upperhex (i : Nat) : Nat := if i < 10 then 48 + i else 55 + i

/-- Go `shouldEscape(c, mode)`: whether byte `c` must be percent-escaped in
the part of a URL that `mode` names. -/
def shouldEscape (c : Nat) (mode : encoding) : Bool :=
  -- §2.3 Unreserved characters (alphanum)
  if (97 ≤ c ∧ c ≤ 122) ∨ (65 ≤ c ∧ c ≤ 90) ∨ (48 ≤ c ∧ c ≤ 57) then false
  else if (mode = encodeHost ∨ mode = encodeZone) ∧
      c ∈ [33, 36, 38, 39, 40, 41, 42, 43, 44, 59, 61, 58, 91, 93, 60, 62, 34] then false
  -- '-', '_', '.', '~'
  else if c ∈ [45, 95, 46, 126] then false
  -- '$', '&', '+', ',', '/', ':', ';', '=', '?', '@'
  else if c ∈ [36, 38, 43, 44, 47, 58, 59, 61, 63, 64] then
    match mode with
    | encodePath => c = 63
    | encodePathSegment => c = 47 || c = 59 || c = 44 || c = 63
    | encodeUserPassword => c = 64 || c = 47 || c = 63 || c = 58
    | encodeQueryComponent => true
    | encodeFragment => false
    | _ => true
  else if mode = encodeFragment ∧ c ∈ [33, 40, 41, 42] then false
  else true

/-- The first loop of `unescape`: every `%` is followed by two hex digits and
the mode's restrictions hold. Returns `(n, hasPlus)`, the number of `%` and
whether a `+` stands for a space. -/
def unescapeCheck (mode : encoding) : GoString → Nat → Bool → Except ParseErr (Nat × Bool)
  | [], n, hasPlus => .ok (n, hasPlus)
  | c :: rest, n, hasPlus =>
    if c = 37 then
      match rest with
      | a :: b :: rest2 =>
        if !ishex a || !ishex b then .error (.escapeError [c, a, b])
        else if mode = encodeHost ∧ unhex a < 8 ∧ [c, a, b] ≠ [37, 50, 53] then
          .error (.escapeError [c, a, b])
        else if mode = encodeZone ∧ [c, a, b] ≠ [37, 50, 53] ∧
            unhex a * 16 + unhex b ≠ 32 ∧
            shouldEscape (unhex a * 16 + unhex b) encodeHost then
          .error (.escapeError [c, a, b])
        else unescapeCheck mode rest2 (n + 1) hasPlus
      | _ => .error (.escapeError (c :: rest))
    else if c = 43 then
      unescapeCheck mode rest n (decide (mode = encodeQueryComponent))
    else if (mode = encodeHost ∨ mode = encodeZone) ∧ c < 128 ∧ shouldEscape c encodeHost then
      .error (.invalidHostError [c])
    else unescapeCheck mode rest n hasPlus

/-- The second loop of `unescape`: the decoded bytes. -/
def unescapeBuild (mode : encoding) : GoString → GoString
  | [] => []
  | c :: rest =>
    if c = 37 then
      match rest with
      | a :: b :: rest2 => (unhex a * 16 + unhex b) :: unescapeBuild mode rest2
      | _ => []
    else if c = 43 then
      (if mode = encodeQueryComponent then 32 else 43) :: unescapeBuild mode rest
    else c :: unescapeBuild mode rest

/-- Go `unescape(s, mode)`. -/
def unescape (s : GoString) (mode : encoding) : Except ParseErr GoString :=
  match unescapeCheck mode s 0 false with
  | .error e => .error e
  | .ok (n, hasPlus) => if n = 0 ∧ hasPlus = false then .ok s else .ok (unescapeBuild mode s)

/-- The second loop of `escape`: the encoded bytes. -/
def escapeBuild (mode : encoding) : GoString → GoString
  | [] => []
  | c :: rest =>
    if c = 32 ∧ mode = encodeQueryComponent then 43 :: escapeBuild mode rest
    else if shouldEscape c mode then
      37 :: upperhex (c / 16) :: upperhex (c % 16) :: escapeBuild mode rest
    else c :: escapeBuild mode rest

/-- Go `escape(s, mode)`: `s` itself when no byte needs escaping. -/
def escape (s : GoString) (mode : encoding) : GoString :=
  if s.all (fun c => !shouldEscape c mode) then s else escapeBuild mode s

/-- Go `validEncoded(s, mode)`. -/
def validEncoded (s : GoString) (mode : encoding) : Bool :=
  s.all fun c =>
    if c ∈ [33, 36, 38, 39, 40, 41, 42, 43, 44, 59, 61, 58, 64] then true
    else if c = 91 ∨ c = 93 then true
    else if c = 37 then true
    else !shouldEscape c mode

/-- Go `stringContainsCTLByte`. -/
def stringContainsCTLByte (s : GoString) : Bool :=
  s.any fun b => decide (b < 32) || decide (b = 127)

/-- The loop of `getScheme`: `rest` is `rawURL[i:]`. -/
def getSchemeLoop (rawURL : GoString) : GoString → Nat → Except ParseErr (GoString × GoString)
  | [], _ => .ok ([], rawURL)
  | c :: rest, i =>
    if (97 ≤ c ∧ c ≤ 122) ∨ (65 ≤ c ∧ c ≤ 90) then getSchemeLoop rawURL rest (i + 1)
    else if (48 ≤ c ∧ c ≤ 57) ∨ c = 43 ∨ c = 45 ∨ c = 46 then
      if i = 0 then .ok ([], rawURL) else getSchemeLoop rawURL rest (i + 1)
    else if c = 58 then
      if i = 0 then .error .missingProtocolScheme
      else .ok (rawURL.take i, rawURL.drop (i + 1))
    else .ok ([], rawURL)

/-- Go `getScheme(rawURL)`: `(scheme, path)`. -/
def getScheme (rawURL : GoString) : Except ParseErr (GoString × GoString) :=
  getSchemeLoop rawURL rawURL 0

/-- Go `validUserinfo`. -/
def validUserinfo (s : GoString) : Bool :=
  s.all fun r =>
    (65 ≤ r && r ≤ 90) || (97 ≤ r && r ≤ 122) || (48 ≤ r && r ≤ 57) ||
    decide (r ∈ [45, 46, 95, 58, 126, 33, 36, 38, 39, 40, 41, 42, 43, 44, 59, 61, 37, 64])

/-- Go `validOptionalPort`. -/
def validOptionalPort (port : GoString) : Bool :=
  match port with
  | [] => true
  | c :: digits => if c ≠ 58 then false else digits.all fun b => !(decide (b < 48) || decide (b > 57))

/-- Go `parseHost`. -/
def parseHost (host : GoString) : Except ParseErr GoString :=
  if strings.HasPrefix host [91] then
    -- an IP-literal, "[fe80::1]", "[fe80::1%25en0]", "[fe80::1]:80"
    let i := strings.LastIndex host [93]
    if i < 0 then .error .missingBracket
    else
      let colonPort := host.drop (i.toNat + 1)
      if !validOptionalPort colonPort then .error (.invalidPort colonPort)
      else
        let zone := strings.Index (host.take i.toNat) [37, 50, 53]
        if 0 ≤ zone then
          match unescape (host.take zone.toNat) encodeHost with
          | .error e => .error e
          | .ok host1 =>
            match unescape ((host.take i.toNat).drop zone.toNat) encodeZone with
            | .error e => .error e
            | .ok host2 =>
              match unescape (host.drop i.toNat) encodeHost with
              | .error e => .error e
              | .ok host3 => .ok (host1 ++ host2 ++ host3)
        else unescape host encodeHost
  else
    let i := strings.LastIndex host [58]
    if i ≠ -1 ∧ !validOptionalPort (host.drop i.toNat) then
      .error (.invalidPort (host.drop i.toNat))
    else unescape host encodeHost

/-- Go `parseAuthority`: `(user, host)`. -/
def parseAuthority (authority : GoString) : Except ParseErr (Option Userinfo × GoString) :=
  let i := strings.LastIndex authority [64]
  match (if i < 0 then parseHost authority else parseHost (authority.drop (i.toNat + 1))) with
  | .error e => .error e
  | .ok host =>
    if i < 0 then .ok (none, host)
    else
      let userinfo := authority.take i.toNat
      if !validUserinfo userinfo then .error .invalidUserinfo
      else if !strings.Contains userinfo [58] then
        match unescape userinfo encodeUserPassword with
        | .error e => .error e
        | .ok name => .ok (some ⟨name, [], false⟩, host)
      else
        let c := strings.Cut userinfo [58]
        match unescape c.1 encodeUserPassword with
        | .error e => .error e
        | .ok username =>
          match unescape c.2.1 encodeUserPassword with
          | .error e => .error e
          | .ok password => .ok (some ⟨username, password, true⟩, host)

/-- Go `(*URL).setPath`: sets `Path` and `RawPath`; on an error the URL is
left as it was. -/
def setPath (u : URL) (p : GoString) : Except ParseErr URL :=
  match unescape p encodePath with
  | .error e => .error e
  | .ok path =>
    .ok { u with Path := path, RawPath := if p = escape path encodePath then [] else p }

/-- Go `(*URL).setFragment`. -/
def setFragment (u : URL) (f : GoString) : Except ParseErr URL :=
  match unescape f encodeFragment with
  | .error e => .error e
  | .ok frag =>
    .ok { u with Fragment := frag, RawFragment := if f = escape frag encodeFragment then [] else f }

/-- The end of `parse`: the authority, then the path. -/
def parseAuthorityAndPath (url : URL) (rest : GoString) (viaRequest : Bool) :
    Except ParseErr URL :=
  if (url.Scheme ≠ [] ∨ (!viaRequest ∧ !strings.HasPrefix rest [47, 47, 47])) ∧
      strings.HasPrefix rest [47, 47] then
    let authority0 := rest.drop 2
    let i := strings.Index authority0 [47]
    let authority := if 0 ≤ i then authority0.take i.toNat else authority0
    let rest2 := if 0 ≤ i then authority0.drop i.toNat else []
    match parseAuthority authority with
    | .error e => .error e
    | .ok (user, host) => setPath { url with User := user, Host := host } rest2
  else if url.Scheme ≠ [] ∧ strings.HasPrefix rest [47] then
    setPath { url with OmitHost := true } rest
  else setPath url rest

/-- Go `parse(rawURL, viaRequest)`. -/
def parse (rawURL : GoString) (viaRequest : Bool) : Except ParseErr URL :=
  if stringContainsCTLByte rawURL then .error .invalidControlCharacter
  else if rawURL = [] ∧ viaRequest then .error .emptyURL
  else if rawURL = [42] then .ok { Path := [42] }
  else
    match getScheme rawURL with
    | .error e => .error e
    | .ok (scheme, rest0) =>
      let url0 : URL := { Scheme := strings.ToLower scheme }
      let forced := strings.HasSuffix rest0 [63] && decide (strings.CountByte rest0 63 = 1)
      let rest := if forced then rest0.take (rest0.length - 1) else (strings.Cut rest0 [63]).1
      let url : URL :=
        if forced then { url0 with ForceQuery := true }
        else { url0 with RawQuery := (strings.Cut rest0 [63]).2.1 }
      if !strings.HasPrefix rest [47] then
        if url.Scheme ≠ [] then
          -- rootless paths are opaque
          .ok { url with Opaque := rest }
        else if viaRequest then .error .invalidURIForRequest
        else if strings.Contains (strings.Cut rest [47]).1 [58] then
          .error .firstPathSegmentColon
        else parseAuthorityAndPath url rest viaRequest
      else parseAuthorityAndPath url rest viaRequest

/-- Go `url.Parse(rawURL)`. -/
def Parse (rawURL : GoString) : Except Error URL :=
  let c := strings.Cut rawURL [35]
  match parse c.1 false with
  | .error e => .error ⟨str "parse", c.1, e⟩
  | .ok url =>
    if c.2.1 = [] then .ok url
    else
      match setFragment url c.2.1 with
      | .error e => .error ⟨str "parse", rawURL, e⟩
      | .ok url2 => .ok url2

/-- Go `url.ParseRequestURI(rawURL)`. -/
def ParseRequestURI (rawURL : GoString) : Except Error URL :=
  match parse rawURL true with
  | .error e => .error ⟨str "parse", rawURL, e⟩
  | .ok url => .ok url

/-- Go `(*URL).EscapedPath`. -/
def EscapedPath (u : URL) : GoString :=
  if u.RawPath ≠ [] ∧ validEncoded u.RawPath encodePath ∧
      unescape u.RawPath encodePath = .ok u.Path then u.RawPath
  else if u.Path = [42] then [42]
  else escape u.Path encodePath

/-- Go `(*URL).EscapedFragment`. -/
def EscapedFragment (u : URL) : GoString :=
  if u.RawFragment ≠ [] ∧ validEncoded u.RawFragment encodeFragment ∧
      unescape u.RawFragment encodeFragment = .ok u.Fragment then u.RawFragment
  else escape u.Fragment encodeFragment

/-- Go `(*Userinfo).String`. -/
def Userinfo.String (u : Userinfo) : GoString :=
  escape u.username encodeUserPassword ++
    (if u.passwordSet then [58] ++ escape u.password encodeUserPassword else [])

/-- The loop of `resolvePath`, one `strings.Cut` of `remaining` at `/` per
turn: returns the builder `dst` and the last `elem`. -/
def resolvePathLoop : Nat → GoString → GoString → Bool → GoString → GoString × GoString
  | 0, _, dst, _, elem => (dst, elem)
  | fuel + 1, remaining, dst, first, _ =>
    let c := strings.Cut remaining [47]
    let elem := c.1
    let next : GoString × Bool :=
      if elem = [46] then (dst, false)
      else if elem = [46, 46] then
        let s := dst.drop 1
        let index := strings.LastIndex s [47]
        if index = -1 then ([47], true) else ([47] ++ s.take index.toNat, first)
      else ((if !first then dst ++ [47] else dst) ++ elem, false)
    if c.2.2 then resolvePathLoop fuel c.2.1 next.1 next.2 elem else (next.1, elem)

/-- Go `resolvePath(base, ref)`: `ref` resolved against `base`, dot segments
removed. The loop makes at most one turn per byte of `full`, and one more. -/
def resolvePath (base ref : GoString) : GoString :=
  let full :=
    if ref = [] then base
    else if ref.head? ≠ some 47 then base.take ((strings.LastIndex base [47]).toNat + 1) ++ ref
    else ref
  if full = [] then []
  else
    let out := resolvePathLoop (full.length + 1) full [47] true []
    let r := if out.2 = [46] ∨ out.2 = [46, 46] then out.1 ++ [47] else out.1
    if 1 < r.length ∧ r.get? 1 = some 47 then r.drop 1 else r

/-- Go `(*URL).ResolveReference(ref)`. -/
def ResolveReference (u ref : URL) : URL :=
  let url : URL := if ref.Scheme = [] then { ref with Scheme := u.Scheme } else ref
  let set (v : URL) (p : GoString) : URL :=
    match setPath v p with
    | .ok w => w
    | .error _ => v
  if ref.Scheme ≠ [] ∨ ref.Host ≠ [] ∨ ref.User.isSome then
    -- the "absoluteURI" or "net_path" cases
    set url (resolvePath (EscapedPath ref) [])
  else if ref.Opaque ≠ [] then
    { url with User := none, Host := [], Path := [] }
  else
    let url1 : URL :=
      if ref.Path = [] ∧ !ref.ForceQuery ∧ ref.RawQuery = [] then
        if ref.Fragment = [] then
          { url with RawQuery := u.RawQuery, Fragment := u.Fragment, RawFragment := u.RawFragment }
        else { url with RawQuery := u.RawQuery }
      else url
    if ref.Path = [] ∧ u.Opaque ≠ [] then
      { url1 with Opaque := u.Opaque, User := none, Host := [], Path := [] }
    else
      -- the "abs_path" or "rel_path" cases
      set { url1 with Host := u.Host, User := u.User } (resolvePath (EscapedPath u) (EscapedPath ref))

/-- Go `(*URL).String`. -/
def URL.String (u : URL) : GoString :=
  let buf1 : GoString := if u.Scheme ≠ [] then u.Scheme ++ [58] else []
  let buf2 : GoString :=
    if u.Opaque ≠ [] then buf1 ++ u.Opaque
    else
      let buf3 : GoString :=
        if u.Scheme ≠ [] ∨ u.Host ≠ [] ∨ u.User.isSome then
          if u.OmitHost ∧ u.Host = [] ∧ u.User.isNone then buf1
          else
            buf1 ++ (if u.Host ≠ [] ∨ u.Path ≠ [] ∨ u.User.isSome then [47, 47] else []) ++
              (match u.User with
                | some ui => ui.String ++ [64]
                | none => []) ++
              (if u.Host ≠ [] then escape u.Host encodeHost else [])
        else buf1
      let path := EscapedPath u
      let buf4 : GoString :=
        if path ≠ [] ∧ path.head? ≠ some 47 ∧ u.Host ≠ [] then buf3 ++ [47] else buf3
      let buf5 : GoString :=
        if buf4 = [] ∧ strings.Contains (strings.Cut path [47]).1 [58] then buf4 ++ [46, 47]
        else buf4
      buf5 ++ path
  let buf6 : GoString :=
    if u.ForceQuery ∨ u.RawQuery ≠ [] then buf2 ++ [63] ++ u.RawQuery else buf2
  if u.Fragment ≠ [] then buf6 ++ [35] ++ EscapedFragment u else buf6

/-- Go `splitHostPort`: `(host, port)`. -/
def splitHostPort (hostPort : GoString) : GoString × GoString :=
  let colon := strings.LastIndex hostPort [58]
  let split := decide (colon ≠ -1) && validOptionalPort (hostPort.drop colon.toNat)
  let host := if split then hostPort.take colon.toNat else hostPort
  let port := if split then hostPort.drop (colon.toNat + 1) else []
  if strings.HasPrefix host [91] && strings.HasSuffix host [93] then
    ((host.take (host.length - 1)).drop 1, port)
  else (host, port)

/-- Go `(*URL).Hostname`. -/
def URL.Hostname (u : URL) : GoString := (splitHostPort u.Host).1

end nurl

/-! ## utils-common.go: `toAbsoluteURI` -/

/-- The functions of `net/url` that `toAbsoluteURI` calls. The properties of
`toAbsoluteURI` that do not depend on what these compute are stated for every
such record; `goNetURL` is the standard library's. -/
structure NetURL where
  ParseRequestURI : GoString → Except nurl.Error nurl.URL
  Parse : GoString → Except nurl.Error nurl.URL
  Hostname : nurl.URL → GoString
  ResolveReference : nurl.URL → nurl.URL → nurl.URL
  String : nurl.URL → GoString

/-- Package `net/url` of the Go standard library. -/
def goNetURL : NetURL where
  ParseRequestURI := nurl.ParseRequestURI
  Parse := nurl.Parse
  Hostname := nurl.URL.Hostname
  ResolveReference := nurl.ResolveReference
  String := nurl.URL.String

/-- Go `toAbsoluteURI(uri, base)`: `uri` made absolute against `base`; a `uri`
that starts with `#` is not changed. `base` is a pointer, `none` is nil.
The result `none` is a run-time panic. -/
def toAbsoluteURI (L : NetURL) (uri : GoString) (base : Option nurl.URL) : Option GoString :=
  if uri = [] ∨ base.isNone then some []
  else
    -- If it is hash tag, return as it is
    match sliceTo uri 1 with
    | none => none
    | some first =>
      if first = [35] then some uri
      else
        -- If it is already an absolute URL, return as it is
        let absolute : Bool :=
          match L.ParseRequestURI uri with
          | .ok tmp => decide (tmp.Scheme ≠ []) && decide (L.Hostname tmp ≠ [])
          | .error _ => false
        if absolute then some uri
        else
          -- Otherwise, resolve against base URI.
          match L.Parse uri with
          | .error _ => some uri
          | .ok tmp =>
            match base with
            | none => none
            | some b => some (L.String (L.ResolveReference b tmp))

/-! ## Packages `unicode/utf8` and `unicode` -/

namespace utf8

/-- Go `utf8.RuneError`, U+FFFD. -/
def RuneError : Nat := 65533

/-- Go `utf8.DecodeRuneInString(s)`: the first rune of `s` and its width in
bytes; `(RuneError, 1)` for an invalid encoding, `(RuneError, 0)` for the
empty string. -/
def DecodeRuneInString (s : GoString) : Nat × Nat :=
  match s with
  | [] => (RuneError, 0)
  | s0 :: t =>
    if s0 < 128 then (s0, 1)
    else if s0 < 194 ∨ 244 < s0 then (RuneError, 1)
    else
      -- the width, and the range accepted for the second byte
      let sz := if s0 < 224 then 2 else if s0 < 240 then 3 else 4
      let lo := if s0 = 224 then 160 else if s0 = 240 then 144 else 128
      let hi := if s0 = 237 then 159 else if s0 = 244 then 143 else 191
      if s.length < sz then (RuneError, 1)
      else
        match t with
        | [] => (RuneError, 1)
        | s1 :: t1 =>
          if s1 < lo ∨ hi < s1 then (RuneError, 1)
          else if sz ≤ 2 then ((s0 % 32) * 64 + s1 % 64, 2)
          else
            match t1 with
            | [] => (RuneError, 1)
            | s2 :: t2 =>
              if s2 < 128 ∨ 191 < s2 then (RuneError, 1)
              else if sz ≤ 3 then ((s0 % 16) * 4096 + (s1 % 64) * 64 + s2 % 64, 3)
              else
                match t2 with
                | [] => (RuneError, 1)
                | s3 :: _ =>
                  if s3 < 128 ∨ 191 < s3 then (RuneError, 1)
                  else ((s0 % 8) * 262144 + (s1 % 64) * 4096 + (s2 % 64) * 64 + s3 % 64, 4)

/-- The loop `for i, r := range s`: the pairs `(i, r)` it runs through, `rest`
being `s[i:]`. Every turn consumes at least one byte. -/
def rangeLoop : Nat → GoString → Nat → List (Nat × Nat)
  | 0, _, _ => []
  | fuel + 1, rest, i =>
    if rest = [] then []
    else
      let d := DecodeRuneInString rest
      (i, d.1) :: rangeLoop fuel (rest.drop d.2) (i + d.2)

/-- The pairs `(i, r)` of `for i, r := range s`. -/
def rangeString (s : GoString) : List (Nat × Nat) := rangeLoop s.length s 0

/-- The runes of `s`, as `range s` yields them. -/
def runes (s : GoString) : List Nat := (rangeString s).map Prod.snd

end utf8

namespace unicode

/-- Go `unicode.IsSpace(r)`: the Unicode White_Space property. -/
def IsSpace (r : Nat) : Bool :=
  if r ≤ 255 then decide (r ∈ [9, 10, 11, 12, 13, 32, 133, 160])
  else
    decide (r = 5760) || (decide (8192 ≤ r) && decide (r ≤ 8202)) || decide (r = 8232) ||
      decide (r = 8233) || decide (r = 8239) || decide (r = 8287) || decide (r = 12288)

end unicode

namespace strings

/-- Go `asciiSpace[c]`. -/
def asciiSpace (c : Nat) : Nat := if c ∈ [9, 10, 11, 12, 13, 32] then 1 else 0

/-- The loop of `strings.FieldsFunc`: `start` is the start of the field being
read, negative between fields; `spans` the fields recorded. -/
def fieldsFuncLoop (f : Nat → Bool) : List (Nat × Nat) → Int → List (Nat × Nat) →
    List (Nat × Nat) × Int
  | [], start, spans => (spans, start)
  | (e, rune) :: more, start, spans =>
    if f rune then
      if 0 ≤ start then fieldsFuncLoop f more (-start - 1) (spans ++ [(start.toNat, e)])
      else fieldsFuncLoop f more start spans
    else if start < 0 then fieldsFuncLoop f more (e : Int) spans
    else fieldsFuncLoop f more start spans

/-- Go `strings.FieldsFunc(s, f)`. -/
def FieldsFunc (s : GoString) (f : Nat → Bool) : List GoString :=
  let r := fieldsFuncLoop f (utf8.rangeString s) (-1) []
  -- Last field might end at EOF.
  let spans := if 0 ≤ r.2 then r.1 ++ [(r.2.toNat, s.length)] else r.1
  spans.map fun sp => (s.take sp.2).drop sp.1

/-- The first loop of `strings.Fields`: `(n, wasSpace, setBits)`. -/
def fieldsCount : GoString → Nat → Nat → Nat → Nat × Nat × Nat
  | [], n, wasSpace, setBits => (n, wasSpace, setBits)
  | r :: rest, n, wasSpace, setBits =>
    fieldsCount rest (n + (if wasSpace = 1 ∧ asciiSpace r = 0 then 1 else 0)) (asciiSpace r)
      (setBits ||| r)

/-- The loop `for i < len(s) && asciiSpace[s[i]] != 0 { i++ }` from `rest = s[i:]`. -/
def skipSpaces : GoString → Nat → GoString × Nat
  | [], i => ([], i)
  | c :: rest, i => if asciiSpace c ≠ 0 then skipSpaces rest (i + 1) else (c :: rest, i)

/-- The assignment `a[na] = v`; `none` is the panic "index out of range". -/
def setIndex (a : List GoString) (na : Nat) (v : GoString) : Option (List GoString) :=
  if na < a.length then some (a.set na v) else none

/-- The main loop of the ASCII path of `strings.Fields` and the statement that
follows it; `rest` is `s[i:]`. `none` is a panic, or no fuel left. -/
def fieldsFill (s : GoString) : Nat → GoString → Nat → Nat → Nat → List GoString →
    Option (List GoString)
  | 0, _, _, _, _, _ => none
  | _ + 1, [], _, fieldStart, na, a =>
    if fieldStart < s.length then setIndex a na (s.drop fieldStart) else some a
  | fuel + 1, c :: rest, i, fieldStart, na, a =>
    if asciiSpace c = 0 then fieldsFill s fuel rest (i + 1) fieldStart na a
    else
      match setIndex a na ((s.take i).drop fieldStart) with
      | none => none
      | some a2 =>
        let k := skipSpaces rest (i + 1)
        fieldsFill s fuel k.1 k.2 k.2 (na + 1) a2

/-- Go `strings.Fields(s)`: `s` split around each run of white space. `none`
is a run-time panic. -/
def Fields (s : GoString) : Option (List GoString) :=
  let c := fieldsCount s 0 1 0
  if 128 ≤ c.2.2 then
    -- Some runes in the input string are not ASCII.
    some (FieldsFunc s unicode.IsSpace)
  else
    -- ASCII fast path
    let k := skipSpaces s 0
    fieldsFill s (s.length + 1) k.1 k.2 k.2 0 (List.replicate c.1 [])

end strings

/-! ## utils-common.go: `wordCount` -/

/-- Go `wordCount(str)`: `len(strings.Fields(str))`. `none` is a run-time panic. -/
def wordCount (s : GoString) : Option Int :=
  match strings.Fields s with
  | none => none
  | some fields => some (fields.length : Int)

/-- The words of a string in the terms of the spec: the maximal runs of runes
that are not white space, that is, the non-empty pieces that are left when the
runes of the string are split at every white-space rune. -/
def wordsOf (s : GoString) : List (List Nat) :=
  ((utf8.runes s).splitOnP unicode.IsSpace).filter fun w => !w.isEmpty

/-- The number of places in `l` where a run of runes outside `p` starts: a rune
outside `p` that is the first one or follows a rune in `p`. `wasSpace` tells
whether the rune before `l` is in `p`, or that there is none. Used in the
proofs about `wordCount`. -/
def countStarts (p : Nat → Bool) : Bool → List Nat → Nat
  | _, [] => 0
  | wasSpace, r :: rest => (if wasSpace ∧ p r = false then 1 else 0) + countStarts p (p r) rest

/-! ## readability.go

`FromURL` and `FromURLWithConfig` call the network and the parser. The
embedding passes these in as a `World`: what the HTTP client answers, and the
parser (`NewParser`, `IsReadable`, `Parse`, declared in the repository's
parser file). A parser method that takes an `io.Reader` is a `ReadProg`: it
asks for bytes and goes on with what `Read` gave it. Every call to the
outside is recorded, in order, in the list `calls` of the `Run`. -/

/-- Go `time.Duration`. -/
abbrev Duration := Int

/-- Modelled from the spec: the `Article` record of spec §3 (its declaration
is in the parser's file); `PublishedTime` is a Unix time when present. The
record with every field empty is Go's `Article{}`. -/
structure Article where
  Title : GoString := []
  Byline : GoString := []
  Dir : GoString := []
  Content : GoString := []
  TextContent : GoString := []
  Excerpt : GoString := []
  SiteName : GoString := []
  Image : GoString := []
  Favicon : GoString := []
  Length : Int := 0
  PublishedTime : Option Int := none
  Language : GoString := []
  deriving DecidableEq, Repr

/-- Modelled from the spec: the configuration record `ReadabilityConfig` of
spec §6 (its declaration is in the parser's file). Of its fields the two
entry points read `Timeout` only. -/
structure ReadabilityConfig where
  MaxElemsToParse : Int := 0
  NbTopCandidates : Int := 5
  CharThreshold : Int := 500
  ClassesToPreserve : List GoString := []
  KeepClasses : Bool := false
  TagsToScore : List GoString := []
  AllowedVideoRegex : GoString := []
  Debug : Bool := false
  Timeout : Duration := 0
  deriving DecidableEq, Repr

/-- A computation that reads from an `io.Reader`: it ends with a result, or
calls `Read(p)` with `len(p) = n` and goes on with the outcome, `some bytes`
for the bytes read and `none` for `io.EOF`. -/
inductive ReadProg (α : Type) where
  | done (a : α) : ReadProg α
  | read (n : Nat) (k : Option GoString → ReadProg α) : ReadProg α

/-- Runs a `ReadProg` against a reader with state `σ` and `Read` method `rd`:
the result and the reader's final state. -/
def ReadProg.run {σ α : Type} (rd : Nat → σ → Option GoString × σ) : ReadProg α → σ → α × σ
  | .done a, st => (a, st)
  | .read n k, st => ReadProg.run rd (k (rd n st).1) (rd n st).2

/-- `Read` of the response body: `rest` is what has not been read yet. A read
gives at most `n` bytes and at most what the transport has ready
(`chunk n rest`); `io.EOF` once nothing is left. -/
def bodyRead (chunk : Nat → GoString → Nat) (n : Nat) (rest : GoString) :
    Option GoString × GoString :=
  if rest = [] then (none, [])
  else
    (some (rest.take (min (chunk n rest) n)), rest.drop (min (chunk n rest) n))

/-- Go `io.TeeReader(body, &buffer).Read`: reads from the body and writes what
was read to the buffer. The state is `(rest of the body, buffer)`. -/
def teeRead (chunk : Nat → GoString → Nat) (n : Nat) (st : GoString × GoString) :
    Option GoString × (GoString × GoString) :=
  let r := bodyRead chunk n st.1
  match r.1 with
  | some bs => (some bs, (r.2, st.2 ++ bs))
  | none => (none, (r.2, st.2))

/-- Go `(*bytes.Buffer).Read`: the unread bytes of the buffer, `io.EOF` when
there is none. -/
def bufferRead (n : Nat) (buf : GoString) : Option GoString × GoString :=
  if buf = [] then (if n = 0 then some [] else none, [])
  else (some (buf.take n), buf.drop n)

/-- What the two entry points call: `net/url`, the HTTP client and the parser
with state `P`. -/
structure World (P : Type) where
  /-- Go `nurl.ParseRequestURI`. -/
  ParseRequestURI : GoString → Except nurl.Error nurl.URL
  /-- The text `%v` prints for a `*url.Error`. -/
  ErrorText : nurl.Error → GoString
  /-- `(&http.Client{Timeout: timeout}).Get(pageURL)`: the body of the
  response, or the text of the error. -/
  Get : GoString → Duration → Except GoString GoString
  /-- How many bytes the transport has ready for a `Read`. -/
  chunk : Nat → GoString → Nat
  /-- Go `NewParser(config)`; `none` is the nil configuration. -/
  NewParser : Option ReadabilityConfig → P
  /-- Go `(*Parser).IsReadable(input)`: the answer and the parser afterwards. -/
  IsReadable : P → ReadProg (Bool × P)
  /-- Go `(*Parser).Parse(input, pageURL)`: `(Article, error)`, the error nil
  (`none`) or its text. -/
  Parse : P → GoString → ReadProg (Article × Option GoString)

/-- A call to the outside. -/
inductive Call where
  | Get (pageURL : GoString) (timeout : Duration)
  | IsReadable
  | Parse (input : GoString) (pageURL : GoString)
  | Close
  deriving DecidableEq, Repr

/-- How a Go call ends: it returns, or the goroutine panics (nil dereference). -/
inductive Outcome (α : Type) where
  | returned (a : α)
  | fault
  deriving DecidableEq, Repr

/-- A run of an entry point: how it ended and the calls it made, in order. -/
structure Run where
  result : Outcome (Article × Option GoString)
  calls : List Call
  deriving DecidableEq, Repr

/-- The call `client.Get(pageURL)`, recorded. -/
def callGet {P : Type} (W : World P) (pageURL : GoString) (timeout : Duration)
    (log : List Call) : Except GoString GoString × List Call :=
  (W.Get pageURL timeout, log ++ [Call.Get pageURL timeout])

/-- The call `parser.IsReadable(tee)`, recorded: the answer, the parser, and the
state `(rest of the body, buffer)` of the tee reader afterwards. -/
def callIsReadable {P : Type} (W : World P) (parser : P) (body : GoString)
    (log : List Call) : ((Bool × P) × (GoString × GoString)) × List Call :=
  ((W.IsReadable parser).run (teeRead W.chunk) (body, []), log ++ [Call.IsReadable])

/-- The call `parser.Parse(&buffer, pageURL)`, recorded with the content of the
buffer it is given. -/
def callParse {P : Type} (W : World P) (parser : P) (buffer : GoString) (pageURL : GoString)
    (log : List Call) : (Article × Option GoString) × List Call :=
  (((W.Parse parser pageURL).run bufferRead buffer).1, log ++ [Call.Parse buffer pageURL])

/-- Go `FromURL(pageURL, timeout)`. -/
def FromURL {P : Type} (W : World P) (pageURL : GoString) (timeout : Duration) : Run :=
  -- Make sure URL is valid
  match W.ParseRequestURI pageURL with
  | .error err =>
    ⟨.returned ({}, some (str "failed to parse URL: " ++ W.ErrorText err)), []⟩
  | .ok _ =>
    -- Fetch page from URL
    let g := callGet W pageURL timeout []
    match g.1 with
    | .error err => ⟨.returned ({}, some (str "failed to fetch the page: " ++ err)), g.2⟩
    | .ok body =>
      -- Check if the page is readable
      let parser := W.NewParser none
      let r := callIsReadable W parser body g.2
      if !r.1.1.1 then
        ⟨.returned ({}, some (str "the page is not readable")), r.2 ++ [Call.Close]⟩
      else
        -- Parse content
        let out := callParse W r.1.1.2 r.1.2.2 pageURL r.2
        ⟨.returned out.1, out.2 ++ [Call.Close]⟩

/-- Go `FromURLWithConfig(pageURL, config)`; `config` is a pointer, `none` is nil. -/
def FromURLWithConfig {P : Type} (W : World P) (pageURL : GoString)
    (config : Option ReadabilityConfig) : Run :=
  -- Make sure URL is valid
  match W.ParseRequestURI pageURL with
  | .error err =>
    ⟨.returned ({}, some (str "failed to parse URL: " ++ W.ErrorText err)), []⟩
  | .ok _ =>
    -- Fetch page from URL: `config.Timeout` dereferences `config`
    match config with
    | none => ⟨.fault, []⟩
    | some cfg =>
      let g := callGet W pageURL cfg.Timeout []
      match g.1 with
      | .error err => ⟨.returned ({}, some (str "failed to fetch the page: " ++ err)), g.2⟩
      | .ok body =>
        -- Check if the page is readable
        let parser := W.NewParser config
        let r := callIsReadable W parser body g.2
        if !r.1.1.1 then
          ⟨.returned ({}, some (str "the page is not readable")), r.2 ++ [Call.Close]⟩
        else
          -- Parse content
          let out := callParse W r.1.1.2 r.1.2.2 pageURL r.2
          ⟨.returned out.1, out.2 ++ [Call.Close]⟩

/-- Go `FromReaderWithConfig(input, pageURL, config)`, `input` a reader over the
bytes `input`; a nil `config` goes to `NewParser` as it is. -/
def FromReaderWithConfig {P : Type} (W : World P) (input : GoString) (pageURL : GoString)
    (config : Option ReadabilityConfig) : Outcome (Article × Option GoString) :=
  .returned ((W.Parse (W.NewParser config) pageURL).run (bodyRead W.chunk) input).1

/-- Go `FromReader(input, pageURL)`. -/
def FromReader {P : Type} (W : World P) (input : GoString) (pageURL : GoString) :
    Outcome (Article × Option GoString) :=
  .returned ((W.Parse (W.NewParser none) pageURL).run (bodyRead W.chunk) input).1

/-! ## Example inputs -/

/-- An example world. The client answers every URL but `http://down.example/`;
`IsReadable` reads eight bytes and says whether they are `<p>hello`; `Parse`
reads once and returns what it read as `TextContent`. -/
def exampleWorld : World Unit where
  ParseRequestURI := nurl.ParseRequestURI
  ErrorText := fun e => e.Op ++ [32] ++ e.URL
  Get := fun pageURL _ =>
    if pageURL = str "http://down.example/" then .error (str "connection refused")
    else if pageURL = str "http://short.example/" then .ok (str "<i>x</i>")
    else .ok (str "<p>hello world</p>")
  chunk := fun n _ => n
  NewParser := fun _ => ()
  IsReadable := fun _ => .read 8 fun r => .done (decide (r = some (str "<p>hello")), ())
  Parse := fun _ _ => .read 64 fun r => .done ({ TextContent := r.getD [] }, none)

/-- The base URL `https://a.com/x/y`, as `url.Parse` returns it. -/
def exampleBase : nurl.URL := { Scheme := str "https", Host := str "a.com", Path := str "/x/y" }

/-- A root-relative path, as the specification of `toAbsoluteURI` words it: it
starts with a single `/`, not `//`, and has no dot segment (`.` or `..`
between slashes), no query (`?`) and no fragment (`#`). -/
def rootRelative (uri : GoString) : Prop :=
  uri.head? = some 47 ∧ uri.get? 1 ≠ some 47 ∧
    (∀ seg ∈ uri.splitOn 47, seg ≠ [46] ∧ seg ≠ [46, 46]) ∧ 63 ∉ uri ∧ 35 ∉ uri

/-- The base URL `https://u@a.com/x/y`, as `url.Parse` returns it. -/
def exampleBaseUser : nurl.URL :=
  { Scheme := str "https", User := some ⟨str "u", [], false⟩, Host := str "a.com",
    Path := str "/x/y" }

/-! # Properties -/

/-! ## `indexOf` -/

theorem indexOfLoop_spec (key : GoString) (array : List GoString) (k : Nat) :
    (key ∈ array → ∃ i : Nat, indexOfLoop key array k = ((k + i : Nat) : Int) ∧
        i < array.length ∧ array.get? i = some key ∧ ∀ j, j < i → array.get? j ≠ some key) ∧
    (key ∉ array → indexOfLoop key array k = -1) := by
  induction array generalizing k with
  | nil => simp [indexOfLoop]
  | cons a rest ih =>
    by_cases h : a = key
    · subst h
      refine ⟨fun _ => ⟨0, ?_, ?_, ?_, ?_⟩, fun hn => ?_⟩
      · simp [indexOfLoop]
      · simp
      · simp
      · intro j hj; omega
      · exact absurd (List.mem_cons_self _ _) hn
    · refine ⟨fun hm => ?_, fun hn => ?_⟩
      · have hm2 : key ∈ rest := by
          rcases List.mem_cons.1 hm with h1 | h1
          · exact absurd h1.symm h
          · exact h1
        obtain ⟨i, h1, h2, h3, h4⟩ := (ih (k + 1)).1 hm2
        refine ⟨i + 1, ?_, ?_, ?_, ?_⟩
        · simp only [indexOfLoop, if_neg h, h1]
          congr 1
          omega
        · simp; omega
        · simpa using h3
        · intro j hj
          cases j with
          | zero => simpa using h
          | succ j => simpa using h4 j (by omega)
      · have hn2 : key ∉ rest := fun hm => hn (List.mem_cons_of_mem _ hm)
        simp only [indexOfLoop, if_neg h]
        exact (ih (k + 1)).2 hn2

/-- C4: `indexOf(array, key)` is the least index at which `key` stands when
`key` occurs in `array`, and it is -1 exactly when `key` occurs nowhere; in
particular it is -1 for the empty array. -/
theorem indexOf_least_index (array : List GoString) (key : GoString) :
    (key ∈ array → ∃ i : Nat, indexOf array key = (i : Int) ∧ i < array.length ∧
        array.get? i = some key ∧ ∀ j, j < i → array.get? j ≠ some key) ∧
    (indexOf array key = -1 ↔ key ∉ array) ∧
    indexOf [] key = -1 := by
  refine ⟨fun hm => ?_, ⟨fun h hm => ?_, fun hn => ?_⟩, rfl⟩
  · obtain ⟨i, h1, h2⟩ := (indexOfLoop_spec key array 0).1 hm
    exact ⟨i, by simpa [indexOf] using h1, h2⟩
  · obtain ⟨i, h1, _⟩ := (indexOfLoop_spec key array 0).1 hm
    rw [indexOf, h1] at h
    omega
  · exact (indexOfLoop_spec key array 0).2 hn

/-- C4 at `["a", "b", "a", "b"]` and the keys `"b"` and `"c"`. -/
theorem indexOf_least_index_witness :
    indexOf [str "a", str "b", str "a", str "b"] (str "b") = 1 ∧
    (indexOf [str "a", str "b", str "a", str "b"] (str "c") = -1 ↔
      str "c" ∉ [str "a", str "b", str "a", str "b"]) :=
  ⟨by decide, (indexOf_least_index [str "a", str "b", str "a", str "b"] (str "c")).2.1⟩

/-! ## `toAbsoluteURI` -/

/-- C1: with a non-nil base, a `uri` whose first byte is `#` is returned
unchanged, whatever `net/url` computes. -/
theorem toAbsoluteURI_hash (L : NetURL) (uri : GoString) (base : nurl.URL)
    (h : uri.head? = some 35) : toAbsoluteURI L uri (some base) = some uri := by
  cases uri with
  | nil => simp at h
  | cons c rest =>
    simp only [List.head?_cons, Option.some.injEq] at h
    subst h
    simp [toAbsoluteURI, sliceTo]

/-- C1 at `"#frag"` and the base `https://a.com/x/y`. -/
theorem toAbsoluteURI_hash_witness :
    toAbsoluteURI goNetURL (str "#frag") (some exampleBase) = some (str "#frag") :=
  toAbsoluteURI_hash goNetURL (str "#frag") exampleBase (by decide)

/-- C2: with a non-nil base, a `uri` that `ParseRequestURI` accepts with a
non-empty scheme and a non-empty host name is returned unchanged, whatever the
base is. -/
theorem toAbsoluteURI_absolute (L : NetURL) (uri : GoString) (base tmp : nurl.URL)
    (hp : L.ParseRequestURI uri = .ok tmp) (hs : tmp.Scheme ≠ [])
    (hh : L.Hostname tmp ≠ []) : toAbsoluteURI L uri (some base) = some uri := by
  cases uri with
  | nil => simp [toAbsoluteURI]
  | cons c rest =>
    by_cases hc : c = 35
    · subst hc
      simp [toAbsoluteURI, sliceTo]
    · simp [toAbsoluteURI, sliceTo, hc, hp, hs, hh]

/-- C2 at `"https://b.com/z"` and the base `https://a.com/x/y`. -/
theorem toAbsoluteURI_absolute_witness :
    goNetURL.ParseRequestURI (str "https://b.com/z") =
        .ok { Scheme := str "https", Host := str "b.com", Path := str "/z" } ∧
      toAbsoluteURI goNetURL (str "https://b.com/z") (some exampleBase) =
        some (str "https://b.com/z") :=
  ⟨by decide,
    toAbsoluteURI_absolute goNetURL (str "https://b.com/z") exampleBase
      { Scheme := str "https", Host := str "b.com", Path := str "/z" }
      (by decide) (by decide) (by decide)⟩

/-- C9: `toAbsoluteURI` returns the empty string when `uri` is empty or `base`
is nil, whatever the other argument is; so with a nil base a `uri` that starts
with `#` or is absolute gives `""`, not `uri`. The guard comes before the slice
`uri[:1]`: no input makes the function panic. -/
theorem toAbsoluteURI_guard (L : NetURL) :
    (∀ base, toAbsoluteURI L [] base = some []) ∧
    (∀ uri, toAbsoluteURI L uri none = some []) ∧
    (∀ uri base, toAbsoluteURI L uri base ≠ none) ∧
    toAbsoluteURI L (str "#frag") none = some [] ∧
    toAbsoluteURI L (str "https://b.com/z") none = some [] := by
  refine ⟨fun base => by simp [toAbsoluteURI], fun uri => by simp [toAbsoluteURI], ?_,
    by simp [toAbsoluteURI], by simp [toAbsoluteURI]⟩
  intro uri base
  cases base with
  | none => simp [toAbsoluteURI]
  | some b =>
    cases uri with
    | nil => simp [toAbsoluteURI]
    | cons c rest =>
      simp only [toAbsoluteURI, sliceTo]
      simp only [List.length_cons, Nat.le_add_left, if_true, List.take_succ_cons, List.take_zero]
      simp only [reduceCtorEq, Option.isNone_some, Bool.false_eq_true, or_self, if_false]
      split
      · simp
      · split
        · simp
        · split <;> simp

/-! ## `toAbsoluteURI` on root-relative paths -/

section rootRelativePaths

open nurl

theorem indexFrom_not_mem (c : Nat) (s : GoString) (i : Nat) (h : c ∉ s) :
    strings.indexFrom [c] s i = -1 := by
  induction s generalizing i with
  | nil => simp [strings.indexFrom]
  | cons x xs ih =>
    have hx : c ≠ x := fun e => h (e ▸ List.mem_cons_self _ _)
    have hxs : c ∉ xs := fun e => h (List.mem_cons_of_mem _ e)
    simp [strings.indexFrom, hx, ih _ hxs]

theorem indexFrom_first (c : Nat) (pre post : GoString) (i : Nat) (h : c ∉ pre) :
    strings.indexFrom [c] (pre ++ c :: post) i = ((i + pre.length : Nat) : Int) := by
  induction pre generalizing i with
  | nil => simp [strings.indexFrom]
  | cons x xs ih =>
    have hx : c ≠ x := fun e => h (e ▸ List.mem_cons_self _ _)
    have hxs : c ∉ xs := fun e => h (List.mem_cons_of_mem _ e)
    have e := ih (i + 1) hxs
    have hp : ([c].isPrefixOf (x :: (xs ++ c :: post))) = false := by
      simp [List.isPrefixOf, hx]
    rw [List.cons_append, strings.indexFrom, hp]
    simp only [Bool.false_eq_true, if_false]
    rw [e]
    simp only [List.length_cons]
    congr 1
    omega

theorem Cut_not_mem (c : Nat) (s : GoString) (h : c ∉ s) :
    strings.Cut s [c] = (s, [], false) := by
  simp [strings.Cut, strings.Index, indexFrom_not_mem c s 0 h]

theorem Cut_first (c : Nat) (pre post : GoString) (h : c ∉ pre) :
    strings.Cut (pre ++ c :: post) [c] = (pre, post, true) := by
  simp [strings.Cut, strings.Index, indexFrom_first c pre post 0 h]

theorem validEncoded_byte (s : GoString) (h : validEncoded s encoding.encodePath = true)
    (c : Nat) (hc : c ∈ s) : c ≠ 63 ∧ c ≠ 35 ∧ 32 ≤ c ∧ c ≠ 127 := by
  simp only [validEncoded, List.all_eq_true] at h
  have hf := h c hc
  refine ⟨?_, ?_, ?_, ?_⟩
  · rintro rfl; simp [shouldEscape] at hf
  · rintro rfl; simp [shouldEscape] at hf
  · by_contra hlt
    have h0 : c ∉ [33, 36, 38, 39, 40, 41, 42, 43, 44, 59, 61, 58, 64] := by simp; omega
    have h1 : ¬ ((97 ≤ c ∧ c ≤ 122) ∨ (65 ≤ c ∧ c ≤ 90) ∨ (48 ≤ c ∧ c ≤ 57)) := by omega
    have h2 : c ∉ [45, 95, 46, 126] := by simp; omega
    have h3 : c ∉ [36, 38, 43, 44, 47, 58, 59, 61, 63, 64] := by simp; omega
    have h4 : ¬ (c = 91 ∨ c = 93) := by omega
    have h5 : c ≠ 37 := by omega
    simp [shouldEscape, h0, h1, h2, h3, h4, h5] at hf
  · rintro rfl; simp [shouldEscape] at hf

theorem escape_safe (s : GoString) (mode : encoding)
    (h : ∀ c ∈ s, shouldEscape c mode = false) : escape s mode = s := by
  have : s.all (fun c => !shouldEscape c mode) = true := by
    simp only [List.all_eq_true]
    intro c hc
    simp [h c hc]
  simp [escape, this]

theorem not_ctl (s : GoString) (h : validEncoded s encoding.encodePath = true) :
    stringContainsCTLByte s = false := by
  simp only [stringContainsCTLByte, List.any_eq_false]
  intro c hc
  obtain ⟨_, _, h5, h6⟩ := validEncoded_byte s h c hc
  simp [h6]
  omega

theorem HasSuffix_not_mem (c : Nat) (s : GoString) (h : c ∉ s) :
    strings.HasSuffix s [c] = false := by
  by_contra hc
  have hc2 : strings.HasSuffix s [c] = true := by simpa using hc
  simp only [strings.HasSuffix, List.isSuffixOf_iff_suffix] at hc2
  exact h (hc2.subset (List.mem_singleton_self c))

theorem unescape_head (rest p : GoString) (h : unescape (47 :: rest) encoding.encodePath = .ok p) :
    p.head? = some 47 := by
  simp only [unescape] at h
  split at h
  · simp at h
  · split at h
    · simp only [Except.ok.injEq] at h
      simp [← h]
    · simp only [Except.ok.injEq] at h
      rw [← h]
      unfold unescapeBuild
      simp

theorem EscapedPath_setPath (u : URL) (rest p : GoString)
    (hv : validEncoded (47 :: rest) encoding.encodePath = true)
    (hp : unescape (47 :: rest) encoding.encodePath = .ok p) :
    setPath u (47 :: rest) = .ok { u with
      Path := p
      RawPath := (if 47 :: rest = escape p .encodePath then [] else 47 :: rest) } ∧
      EscapedPath { u with
      Path := p
      RawPath := (if 47 :: rest = escape p .encodePath then [] else 47 :: rest) } =
        47 :: rest := by
  refine ⟨by simp [setPath, hp], ?_⟩
  have hne : p ≠ [42] := by
    intro e
    have := unescape_head rest p hp
    simp [e] at this
  by_cases e : 47 :: rest = escape p encoding.encodePath
  · simp [EscapedPath, ← e, hne]
  · simp [EscapedPath, e, hv, hp]

theorem parse_rootRelative (rest p : GoString) (v : Bool) (h2 : rest.head? ≠ some 47)
    (hv : validEncoded (47 :: rest) encoding.encodePath = true)
    (hp : unescape (47 :: rest) encoding.encodePath = .ok p) :
    parse (47 :: rest) v = .ok {
      Path := p
      RawPath := (if 47 :: rest = escape p .encodePath then [] else 47 :: rest) } := by
  have h63 : 63 ∉ 47 :: rest := fun hm => (validEncoded_byte _ hv 63 hm).1 rfl
  have hg : getScheme (47 :: rest) = .ok ([], 47 :: rest) := by
    simp [getScheme, getSchemeLoop]
  have hpre : strings.HasPrefix (47 :: rest) [47, 47] = false := by
    cases rest with
    | nil => simp [strings.HasPrefix, List.isPrefixOf]
    | cons c r =>
      have : c ≠ 47 := fun e => h2 (by simp [e])
      simp [strings.HasPrefix, List.isPrefixOf, this]
      intro e
      exact absurd e.symm this
  have hpre1 : strings.HasPrefix (47 :: rest) [47] = true := by
    simp [strings.HasPrefix, List.isPrefixOf]
  have hset := fun (u : URL) => (EscapedPath_setPath u rest p hv hp).1
  simp only [parse, not_ctl _ hv, hg, HasSuffix_not_mem 63 _ h63, Cut_not_mem 63 _ h63,
    strings.ToLower, hpre1, parseAuthorityAndPath, hpre, hset]
  simp [hpre1, hpre, hset]

theorem splitOn_not_mem (s : GoString) (h : 47 ∉ s) : s.splitOn 47 = [s] := by
  apply List.splitOnP_eq_single
  intro x hx hp
  have : x = 47 := by simpa using hp
  exact h (this ▸ hx)

theorem splitOn_first (pre post : GoString) (h : 47 ∉ pre) :
    (pre ++ 47 :: post).splitOn 47 = pre :: post.splitOn 47 := by
  apply List.splitOnP_first
  · intro x hx hp
    have : x = 47 := by simpa using hp
    exact h (this ▸ hx)
  · simp

theorem resolvePathLoop_plain (fuel : Nat) :
    ∀ (remaining dst elem0 : GoString), remaining.length < fuel →
      (∀ seg ∈ remaining.splitOn 47, seg ≠ [46] ∧ seg ≠ [46, 46]) →
      ∃ e, resolvePathLoop fuel remaining dst false elem0 = (dst ++ [47] ++ remaining, e) ∧
        e ≠ [46] ∧ e ≠ [46, 46] := by
  induction fuel with
  | zero => intro remaining dst elem0 hf; omega
  | succ fuel ih =>
    intro remaining dst elem0 hf hseg
    by_cases hm : 47 ∈ remaining
    · obtain ⟨pre, post, hrem, hpre⟩ := List.eq_append_cons_of_mem hm
      subst hrem
      rw [splitOn_first pre post hpre] at hseg
      have hp := hseg pre (List.mem_cons_self _ _)
      obtain ⟨e, he, hne⟩ := ih post (dst ++ [47] ++ pre) pre
        (by simp at hf; omega) (fun seg hs => hseg seg (List.mem_cons_of_mem _ hs))
      refine ⟨e, ?_, hne⟩
      simp only [resolvePathLoop, Cut_first 47 pre post hpre, hp.1, hp.2, if_false]
      simp only [Bool.not_false, if_true, he]
      simp
    · rw [splitOn_not_mem remaining hm] at hseg
      have hp := hseg remaining (List.mem_singleton_self _)
      refine ⟨remaining, ?_, hp⟩
      simp [resolvePathLoop, Cut_not_mem 47 remaining hm, hp.1, hp.2]

theorem resolvePath_rootRelative (base rest : GoString)
    (hseg : ∀ seg ∈ (47 :: rest).splitOn 47, seg ≠ [46] ∧ seg ≠ [46, 46]) :
    resolvePath base (47 :: rest) = 47 :: rest := by
  have hs : (47 :: rest).splitOn 47 = [] :: rest.splitOn 47 :=
    splitOn_first [] rest (by simp)
  rw [hs] at hseg
  obtain ⟨e, he, hne⟩ := resolvePathLoop_plain (rest.length + 1) rest [47] [] (by omega)
    (fun seg h => hseg seg (List.mem_cons_of_mem _ h))
  have hc : strings.Cut (47 :: rest) [47] = ([], rest, true) := Cut_first 47 [] rest (by simp)
  have step : resolvePathLoop (rest.length + 1 + 1) (47 :: rest) [47] true [] =
      resolvePathLoop (rest.length + 1) rest [47] false [] := by
    rw [resolvePathLoop]
    simp [hc]
  simp only [resolvePath]
  simp only [reduceCtorEq, if_false, List.head?_cons, ne_eq, not_true_eq_false, List.length_cons,
    step, he]
  simp [hne.1, hne.2]

/-- C3, amended: for a base with a non-empty scheme `s`, no user info and a
host `h` that `String` writes unescaped, and a root-relative `uri` that is a
validly encoded path (every byte is one `net/url` accepts unescaped in a path
or belongs to a well-formed `%XX` escape), `toAbsoluteURI` returns
`s + "://" + h + uri`; the path of the base is dropped. -/
theorem toAbsoluteURI_rootRelative (base : URL) (uri p : GoString)
    (hs : base.Scheme ≠ []) (hu : base.User = none)
    (hh : escape base.Host encoding.encodeHost = base.Host)
    (hr : rootRelative uri)
    (hv : validEncoded uri encoding.encodePath = true)
    (hp : unescape uri encoding.encodePath = .ok p) :
    toAbsoluteURI goNetURL uri (some base) =
      some (base.Scheme ++ str "://" ++ base.Host ++ uri) := by
  obtain ⟨h1, h2, hseg, _, h35⟩ := hr
  cases uri with
  | nil => simp at h1
  | cons c rest =>
    simp only [List.head?_cons, Option.some.injEq] at h1
    subst h1
    have h2b : rest.head? ≠ some 47 := by
      cases rest with
      | nil => simp
      | cons d r => simpa using h2
    have hp1 := parse_rootRelative rest p true h2b hv hp
    have hp2 := parse_rootRelative rest p false h2b hv hp
    have hcut : strings.Cut (47 :: rest) [35] = (47 :: rest, [], false) := Cut_not_mem 35 _ h35
    have hPR : goNetURL.ParseRequestURI (47 :: rest) = .ok {
        Path := p
        RawPath := (if 47 :: rest = escape p .encodePath then [] else 47 :: rest) } := by
      simp [goNetURL, ParseRequestURI, hp1]
    have hP : goNetURL.Parse (47 :: rest) = .ok {
        Path := p
        RawPath := (if 47 :: rest = escape p .encodePath then [] else 47 :: rest) } := by
      simp [goNetURL, Parse, hcut, hp2]
    have hpne : p ≠ [] := by
      intro e
      have := unescape_head rest p hp
      simp [e] at this
    have hesc := fun (u : URL) => (EscapedPath_setPath u rest p hv hp).2
    have hset := fun (u : URL) => (EscapedPath_setPath u rest p hv hp).1
    have hres : goNetURL.ResolveReference base {
        Path := p
        RawPath := (if 47 :: rest = escape p .encodePath then [] else 47 :: rest) } =
        {
          Scheme := base.Scheme
          Host := base.Host
          Path := p
          RawPath := (if 47 :: rest = escape p .encodePath then [] else 47 :: rest) } := by
      have e1 := hesc {}
      simp only at e1
      simp only [goNetURL, ResolveReference, e1, resolvePath_rootRelative _ rest hseg, hset, hu,
        hpne]
      simp
    have hstr : goNetURL.String {
          Scheme := base.Scheme
          Host := base.Host
          Path := p
          RawPath := (if 47 :: rest = escape p .encodePath then [] else 47 :: rest) } =
        base.Scheme ++ str "://" ++ base.Host ++ (47 :: rest) := by
      have e2 := hesc { Scheme := base.Scheme, Host := base.Host }
      simp only at e2
      have hstr3 : str "://" = [58, 47, 47] := by decide
      simp only [goNetURL, URL.String, e2, hh, hstr3]
      by_cases hhost : base.Host = []
      · simp [hs, hhost, hpne]
      · simp [hs, hhost]
    simp only [toAbsoluteURI, sliceTo]
    simp [hPR, hP, hres, hstr]

/-- C3, amended, at `"/p"` and at `"/p%20q/r!"`, with the base
`https://a.com/x/y`. -/
theorem toAbsoluteURI_rootRelative_witness :
    toAbsoluteURI goNetURL (str "/p") (some exampleBase) = some (str "https://a.com/p") ∧
      toAbsoluteURI goNetURL (str "/p%20q/r!") (some exampleBase) =
        some (str "https://a.com/p%20q/r!") :=
  ⟨toAbsoluteURI_rootRelative exampleBase (str "/p") (str "/p") (by decide)
      (by decide) (by decide) (by unfold rootRelative; decide) (by decide) (by decide),
    toAbsoluteURI_rootRelative exampleBase (str "/p%20q/r!") (str "/p q/r!") (by decide)
      (by decide) (by decide) (by unfold rootRelative; decide) (by decide) (by decide)⟩

/-- C3 as stated fails. The root-relative `"/a b"` against `https://a.com/x/y`
gives `"https://a.com/a%20b"`: `String` percent-escapes the space. And `"/p"`
against `https://u@a.com/x/y` gives `"https://u@a.com/p"`: the user info of
the base is kept. Neither is `s + "://" + h + uri`. -/
theorem toAbsoluteURI_rootRelative_counterexample :
    (rootRelative (str "/a b") ∧ exampleBase.Scheme ≠ [] ∧
      toAbsoluteURI goNetURL (str "/a b") (some exampleBase) = some (str "https://a.com/a%20b") ∧
      toAbsoluteURI goNetURL (str "/a b") (some exampleBase) ≠
        some (exampleBase.Scheme ++ str "://" ++ exampleBase.Host ++ str "/a b")) ∧
    (rootRelative (str "/p") ∧ exampleBaseUser.Scheme ≠ [] ∧
      toAbsoluteURI goNetURL (str "/p") (some exampleBaseUser) = some (str "https://u@a.com/p") ∧
      toAbsoluteURI goNetURL (str "/p") (some exampleBaseUser) ≠
        some (exampleBaseUser.Scheme ++ str "://" ++ exampleBaseUser.Host ++ str "/p")) := by
  refine ⟨⟨?_, by decide, by decide, by decide⟩, ⟨?_, by decide, by decide, by decide⟩⟩
  · unfold rootRelative; decide
  · unfold rootRelative; decide

end rootRelativePaths

/-! ## `FromURL` and `FromURLWithConfig` -/

/-- Reading through the tee reader gives the program the same bytes as reading
the body itself, and adds to the buffer exactly the bytes read. -/
theorem run_teeRead {α : Type} (chunk : Nat → GoString → Nat) (prog : ReadProg α)
    (body buf : GoString) :
    (prog.run (teeRead chunk) (body, buf)).1 = (prog.run (bodyRead chunk) body).1 ∧
    (prog.run (teeRead chunk) (body, buf)).2.1 = (prog.run (bodyRead chunk) body).2 ∧
    (prog.run (teeRead chunk) (body, buf)).2.2 ++ (prog.run (bodyRead chunk) body).2 =
      buf ++ body := by
  induction prog generalizing body buf with
  | done a => simp [ReadProg.run]
  | read n k ih =>
    by_cases hb : body = []
    · subst hb
      have := ih none [] buf
      simpa [ReadProg.run, teeRead, bodyRead] using this
    · have := ih (some (body.take (min (chunk n body) n))) (body.drop (min (chunk n body) n))
        (buf ++ body.take (min (chunk n body) n))
      simpa [ReadProg.run, teeRead, bodyRead, hb, List.append_assoc] using this

/-- C6: when `pageURL` fails the request-URI validation, `FromURL` and
`FromURLWithConfig` return the empty Article and an error whose text starts
with "failed to parse URL: ", and they have made no call: no fetch, no
`IsReadable`, no `Parse`. -/
theorem FromURL_invalid_URL {P : Type} (W : World P) (pageURL : GoString) (timeout : Duration)
    (config : Option ReadabilityConfig) (err : nurl.Error)
    (h : W.ParseRequestURI pageURL = .error err) :
    (∃ msg, FromURL W pageURL timeout = ⟨.returned ({}, some msg), []⟩ ∧
      str "failed to parse URL: " <+: msg) ∧
    (∃ msg, FromURLWithConfig W pageURL config = ⟨.returned ({}, some msg), []⟩ ∧
      str "failed to parse URL: " <+: msg) := by
  refine ⟨⟨_, ?_, List.prefix_append _ (W.ErrorText err)⟩,
    ⟨_, ?_, List.prefix_append _ (W.ErrorText err)⟩⟩
  · simp [FromURL, h]
  · simp [FromURLWithConfig, h]

/-- C6 at the page URL `"not a url"`, with a nil configuration too. -/
theorem FromURL_invalid_URL_witness :
    exampleWorld.ParseRequestURI (str "not a url") =
        .error ⟨str "parse", str "not a url", .invalidURIForRequest⟩ ∧
      (∃ msg, FromURL exampleWorld (str "not a url") 30 = ⟨.returned ({}, some msg), []⟩ ∧
        str "failed to parse URL: " <+: msg) ∧
      (∃ msg, FromURLWithConfig exampleWorld (str "not a url") none =
          ⟨.returned ({}, some msg), []⟩ ∧
        str "failed to parse URL: " <+: msg) :=
  ⟨by decide, FromURL_invalid_URL exampleWorld (str "not a url") 30 none
    ⟨str "parse", str "not a url", .invalidURIForRequest⟩ (by decide)⟩

/-- C7: for a valid `pageURL` whose fetch succeeds, when `IsReadable` answers
false on the body the entry points return the empty Article with the error
"the page is not readable" and make no call of `Parse`; when it answers true
they call `Parse` once, on the buffer, and return its result as it is. So
`Parse` is called only when `IsReadable` answered true. -/
theorem FromURL_not_readable {P : Type} (W : World P) (pageURL : GoString) (timeout : Duration)
    (cfg : ReadabilityConfig) (u : nurl.URL) (body body2 : GoString)
    (hu : W.ParseRequestURI pageURL = .ok u)
    (hg : W.Get pageURL timeout = .ok body)
    (hg2 : W.Get pageURL cfg.Timeout = .ok body2) :
    (((W.IsReadable (W.NewParser none)).run (teeRead W.chunk) (body, [])).1.1 = false →
      (FromURL W pageURL timeout).result =
          .returned ({}, some (str "the page is not readable")) ∧
        ∀ input url, Call.Parse input url ∉ (FromURL W pageURL timeout).calls) ∧
    (((W.IsReadable (W.NewParser none)).run (teeRead W.chunk) (body, [])).1.1 = true →
      (FromURL W pageURL timeout).result = .returned
          ((W.Parse ((W.IsReadable (W.NewParser none)).run (teeRead W.chunk) (body, [])).1.2
            pageURL).run bufferRead
            ((W.IsReadable (W.NewParser none)).run (teeRead W.chunk) (body, [])).2.2).1 ∧
        (FromURL W pageURL timeout).calls = [Call.Get pageURL timeout, Call.IsReadable,
          Call.Parse ((W.IsReadable (W.NewParser none)).run (teeRead W.chunk) (body, [])).2.2
            pageURL, Call.Close]) ∧
    (((W.IsReadable (W.NewParser (some cfg))).run (teeRead W.chunk) (body2, [])).1.1 = false →
      (FromURLWithConfig W pageURL (some cfg)).result =
          .returned ({}, some (str "the page is not readable")) ∧
        ∀ input url, Call.Parse input url ∉ (FromURLWithConfig W pageURL (some cfg)).calls) ∧
    (((W.IsReadable (W.NewParser (some cfg))).run (teeRead W.chunk) (body2, [])).1.1 = true →
      (FromURLWithConfig W pageURL (some cfg)).result = .returned
          ((W.Parse
            ((W.IsReadable (W.NewParser (some cfg))).run (teeRead W.chunk) (body2, [])).1.2
            pageURL).run bufferRead
            ((W.IsReadable (W.NewParser (some cfg))).run (teeRead W.chunk) (body2, [])).2.2).1 ∧
        (FromURLWithConfig W pageURL (some cfg)).calls = [Call.Get pageURL cfg.Timeout,
          Call.IsReadable,
          Call.Parse
            ((W.IsReadable (W.NewParser (some cfg))).run (teeRead W.chunk) (body2, [])).2.2
            pageURL, Call.Close]) := by
  refine ⟨fun h => ?_, fun h => ?_, fun h => ?_, fun h => ?_⟩
  · simp [FromURL, hu, hg, callGet, callIsReadable, h]
  · simp [FromURL, hu, hg, callGet, callIsReadable, callParse, h]
  · simp [FromURLWithConfig, hu, hg2, callGet, callIsReadable, h]
  · simp [FromURLWithConfig, hu, hg2, callGet, callIsReadable, callParse, h]

/-- C7 at the page `http://short.example/`, which `IsReadable` rejects. -/
theorem FromURL_not_readable_witness :
    (FromURL exampleWorld (str "http://short.example/") 30).result =
        .returned ({}, some (str "the page is not readable")) ∧
      ∀ input url, Call.Parse input url ∉
        (FromURL exampleWorld (str "http://short.example/") 30).calls :=
  (FromURL_not_readable exampleWorld (str "http://short.example/") 30 { Timeout := 30 }
    { Scheme := str "http", Host := str "short.example", Path := str "/" }
    (str "<i>x</i>") (str "<i>x</i>") (by decide) (by decide) (by decide)).1 (by decide)

/-- C8, as the code behaves: with a `pageURL` that passes the validation and a
nil configuration, `FromURLWithConfig` dereferences the nil pointer at
`config.Timeout` and panics before any call is made. With a configuration
that is not nil it always returns, and `FromReaderWithConfig` returns with the
nil configuration too. -/
theorem FromURLWithConfig_nil_config {P : Type} (W : World P) (pageURL input : GoString)
    (u : nurl.URL) (hu : W.ParseRequestURI pageURL = .ok u) :
    FromURLWithConfig W pageURL none = ⟨.fault, []⟩ ∧
    (∀ cfg, (FromURLWithConfig W pageURL (some cfg)).result ≠ .fault) ∧
    FromReaderWithConfig W input pageURL none ≠ .fault := by
  refine ⟨?_, ?_, ?_⟩
  · simp [FromURLWithConfig, hu]
  · intro cfg
    simp only [FromURLWithConfig, hu, callGet]
    split
    · simp
    · split <;> simp
  · simp [FromReaderWithConfig]

/-- C8 at the page URL `http://example.com/` and the nil configuration. -/
theorem FromURLWithConfig_nil_config_witness :
    FromURLWithConfig exampleWorld (str "http://example.com/") none = ⟨.fault, []⟩ :=
  (FromURLWithConfig_nil_config exampleWorld (str "http://example.com/") []
    { Scheme := str "http", Host := str "example.com", Path := str "/" } (by decide)).1

/-- C10: when the fetch succeeds and `IsReadable` answers true, `Parse` is
given the buffer of the tee reader, and that buffer is the prefix of the body
that `IsReadable` read: followed by the bytes `IsReadable` left unread it is
the body. It is the whole body exactly when `IsReadable` left nothing unread;
the result returned is that of `Parse` run on the buffer alone. -/
theorem FromURL_parse_input {P : Type} (W : World P) (pageURL : GoString) (timeout : Duration)
    (cfg : ReadabilityConfig) (u : nurl.URL) (body body2 : GoString)
    (hu : W.ParseRequestURI pageURL = .ok u)
    (hg : W.Get pageURL timeout = .ok body)
    (hg2 : W.Get pageURL cfg.Timeout = .ok body2)
    (hr : ((W.IsReadable (W.NewParser none)).run (bodyRead W.chunk) body).1.1 = true)
    (hr2 : ((W.IsReadable (W.NewParser (some cfg))).run (bodyRead W.chunk) body2).1.1 = true) :
    (∃ input,
      (FromURL W pageURL timeout).calls =
        [Call.Get pageURL timeout, Call.IsReadable, Call.Parse input pageURL, Call.Close] ∧
      input ++ ((W.IsReadable (W.NewParser none)).run (bodyRead W.chunk) body).2 = body ∧
      (input = body ↔ ((W.IsReadable (W.NewParser none)).run (bodyRead W.chunk) body).2 = []) ∧
      (FromURL W pageURL timeout).result = .returned
        ((W.Parse ((W.IsReadable (W.NewParser none)).run (bodyRead W.chunk) body).1.2
          pageURL).run bufferRead input).1) ∧
    (∃ input,
      (FromURLWithConfig W pageURL (some cfg)).calls =
        [Call.Get pageURL cfg.Timeout, Call.IsReadable, Call.Parse input pageURL, Call.Close] ∧
      input ++ ((W.IsReadable (W.NewParser (some cfg))).run (bodyRead W.chunk) body2).2 =
        body2 ∧
      (input = body2 ↔
        ((W.IsReadable (W.NewParser (some cfg))).run (bodyRead W.chunk) body2).2 = []) ∧
      (FromURLWithConfig W pageURL (some cfg)).result = .returned
        ((W.Parse ((W.IsReadable (W.NewParser (some cfg))).run (bodyRead W.chunk) body2).1.2
          pageURL).run bufferRead input).1) := by
  have key : ∀ (p : P) (b : GoString),
      ((W.IsReadable p).run (bodyRead W.chunk) b).1.1 = true →
      ((W.IsReadable p).run (teeRead W.chunk) (b, [])).1.1 = true ∧
      ((W.IsReadable p).run (teeRead W.chunk) (b, [])).1.2 =
        ((W.IsReadable p).run (bodyRead W.chunk) b).1.2 ∧
      ((W.IsReadable p).run (teeRead W.chunk) (b, [])).2.2 ++
        ((W.IsReadable p).run (bodyRead W.chunk) b).2 = b ∧
      (((W.IsReadable p).run (teeRead W.chunk) (b, [])).2.2 = b ↔
        ((W.IsReadable p).run (bodyRead W.chunk) b).2 = []) := by
    intro p b hb
    obtain ⟨h1, _, h3⟩ := run_teeRead W.chunk (W.IsReadable p) b []
    simp only [List.nil_append] at h3
    refine ⟨by rw [h1]; exact hb, by rw [h1], h3, ?_⟩
    constructor
    · intro h
      rw [h] at h3
      exact List.append_right_eq_self.1 h3
    · intro h
      rw [h, List.append_nil] at h3
      exact h3
  constructor
  · obtain ⟨k1, k2, k3, k4⟩ := key (W.NewParser none) body hr
    refine ⟨((W.IsReadable (W.NewParser none)).run (teeRead W.chunk) (body, [])).2.2,
      ?_, k3, k4, ?_⟩
    · simp [FromURL, hu, hg, callGet, callIsReadable, callParse, k1]
    · simp [FromURL, hu, hg, callGet, callIsReadable, callParse, k1, k2]
  · obtain ⟨k1, k2, k3, k4⟩ := key (W.NewParser (some cfg)) body2 hr2
    refine ⟨((W.IsReadable (W.NewParser (some cfg))).run (teeRead W.chunk) (body2, [])).2.2,
      ?_, k3, k4, ?_⟩
    · simp [FromURLWithConfig, hu, hg2, callGet, callIsReadable, callParse, k1]
    · simp [FromURLWithConfig, hu, hg2, callGet, callIsReadable, callParse, k1, k2]

/-- C10 at the page `http://example.com/`: `IsReadable` reads eight of the
eighteen bytes of the body, and `Parse` is given those eight. -/
theorem FromURL_parse_input_witness :
    (FromURL exampleWorld (str "http://example.com/") 30).calls =
        [Call.Get (str "http://example.com/") 30, Call.IsReadable,
          Call.Parse (str "<p>hello") (str "http://example.com/"), Call.Close] ∧
      ∃ input,
        (FromURL exampleWorld (str "http://example.com/") 30).calls =
          [Call.Get (str "http://example.com/") 30, Call.IsReadable,
            Call.Parse input (str "http://example.com/"), Call.Close] ∧
        input ++ ((exampleWorld.IsReadable (exampleWorld.NewParser none)).run
          (bodyRead exampleWorld.chunk) (str "<p>hello world</p>")).2 =
          str "<p>hello world</p>" ∧
        (input = str "<p>hello world</p>" ↔
          ((exampleWorld.IsReadable (exampleWorld.NewParser none)).run
            (bodyRead exampleWorld.chunk) (str "<p>hello world</p>")).2 = []) ∧
        (FromURL exampleWorld (str "http://example.com/") 30).result = .returned
          ((exampleWorld.Parse
            ((exampleWorld.IsReadable (exampleWorld.NewParser none)).run
              (bodyRead exampleWorld.chunk) (str "<p>hello world</p>")).1.2
            (str "http://example.com/")).run bufferRead input).1 :=
  ⟨by decide,
    (FromURL_parse_input exampleWorld (str "http://example.com/") 30 { Timeout := 30 }
      { Scheme := str "http", Host := str "example.com", Path := str "/" }
      (str "<p>hello world</p>") (str "<p>hello world</p>")
      (by decide) (by decide) (by decide) (by decide) (by decide)).1⟩

/-! ## `wordCount` -/

theorem lor_lt_iff (a b n : Nat) : a ||| b < 2 ^ n ↔ a < 2 ^ n ∧ b < 2 ^ n := by
  constructor
  · intro h
    have key : ∀ i, n ≤ i → (a ||| b).testBit i = false := fun i hi =>
      Nat.testBit_lt_two_pow (lt_of_lt_of_le h (Nat.pow_le_pow_right (by decide) hi))
    constructor
    · apply Nat.lt_pow_two_of_testBit
      intro i hi
      have := key i hi
      rw [Nat.testBit_or] at this
      simp only [Bool.or_eq_false_iff] at this
      exact this.1
    · apply Nat.lt_pow_two_of_testBit
      intro i hi
      have := key i hi
      rw [Nat.testBit_or] at this
      simp only [Bool.or_eq_false_iff] at this
      exact this.2
  · rintro ⟨h1, h2⟩
    exact Nat.or_lt_two_pow h1 h2

theorem countStarts_true_eq (p : Nat → Bool) (l : List Nat) :
    countStarts p true l = countStarts p false l +
      (match l with
        | [] => 0
        | x :: _ => if p x = false then 1 else 0) := by
  cases l with
  | nil => simp [countStarts]
  | cons x xs => simp [countStarts]; omega

theorem splitOnP_head_nil_iff (p : Nat → Bool) (l : List Nat) :
    ∃ h t, l.splitOnP p = h :: t ∧
      (h = [] ↔ (match l with
        | [] => True
        | x :: _ => p x = true)) := by
  cases l with
  | nil => exact ⟨[], [], by simp, by simp⟩
  | cons x xs =>
    rw [List.splitOnP_cons]
    by_cases hx : p x = true
    · exact ⟨[], xs.splitOnP p, by simp [hx], by simp [hx]⟩
    · obtain ⟨h, t, ht⟩ : ∃ h t, xs.splitOnP p = h :: t := by
        cases hs : xs.splitOnP p with
        | nil => exact absurd hs (List.splitOnP_ne_nil p xs)
        | cons h t => exact ⟨h, t, rfl⟩
      exact ⟨x :: h, t, by simp [hx, ht, List.modifyHead], by simp [hx]⟩

theorem length_words_eq_countStarts (p : Nat → Bool) (l : List Nat) :
    ((l.splitOnP p).filter fun w => !w.isEmpty).length = countStarts p true l := by
  induction l with
  | nil => simp [countStarts]
  | cons x xs ih =>
    rw [List.splitOnP_cons]
    by_cases hx : p x = true
    · simp only [hx, if_true]
      simp only [List.filter_cons, List.isEmpty_nil, Bool.not_true, Bool.false_eq_true, if_false]
      rw [ih]
      simp [countStarts, hx]
    · obtain ⟨h, t, ht, hnil⟩ := splitOnP_head_nil_iff p xs
      have hx2 : p x = false := by simpa using hx
      have e1 : ((h :: t).filter fun w => !w.isEmpty).length =
          (if h = [] then 0 else 1) + (t.filter fun w => !w.isEmpty).length := by
        cases h with
        | nil => simp
        | cons a b => simp [List.filter_cons]; omega
      have e2 := countStarts_true_eq p xs
      have e3 : (match xs with
          | [] => 0
          | y :: _ => if p y = false then 1 else 0) = (if h = [] then 0 else 1) := by
        cases xs with
        | nil =>
          have : h = [] := hnil.2 trivial
          simp [this]
        | cons y ys =>
          by_cases hy : p y = true
          · have : h = [] := hnil.2 hy
            simp [this, hy]
          · have hh : h ≠ [] := fun e => hy (hnil.1 e)
            have hy2 : p y = false := by simpa using hy
            simp [hh, hy2]
      rw [ht] at ih
      have e4 : countStarts p true (x :: xs) = 1 + countStarts p false xs := by
        simp [countStarts, hx2]
      have e5 : ((List.modifyHead (List.cons x) (h :: t)).filter fun w => !w.isEmpty).length =
          1 + (t.filter fun w => !w.isEmpty).length := by
        simp [List.modifyHead, List.filter_cons]; omega
      simp only [hx, if_false, ht, Bool.false_eq_true]
      rw [e5, e4]
      omega

theorem countStarts_congr (p q : Nat → Bool) (l : List Nat) (b : Bool)
    (h : ∀ c ∈ l, p c = q c) : countStarts p b l = countStarts q b l := by
  induction l generalizing b with
  | nil => rfl
  | cons x xs ih =>
    have hx : p x = q x := h x (List.mem_cons_self _ _)
    have := ih (q x) (fun c hc => h c (List.mem_cons_of_mem _ hc))
    simp [countStarts, hx, this]

theorem asciiSpace_le_one (c : Nat) : strings.asciiSpace c = 0 ∨ strings.asciiSpace c = 1 := by
  unfold strings.asciiSpace
  split <;> simp

theorem IsSpace_ascii (c : Nat) (h : c < 128) :
    unicode.IsSpace c = decide (strings.asciiSpace c = 1) := by
  have h1 : c ≤ 255 := by omega
  have h2 : c ≠ 133 := by omega
  have h3 : c ≠ 160 := by omega
  simp [unicode.IsSpace, strings.asciiSpace, h1, h2, h3]

theorem fieldsCount_fst (s : GoString) (n w b : Nat) (hw : w = 0 ∨ w = 1) :
    (strings.fieldsCount s n w b).1 =
      n + countStarts (fun c => decide (strings.asciiSpace c = 1)) (decide (w = 1)) s := by
  induction s generalizing n w b with
  | nil => simp [strings.fieldsCount, countStarts]
  | cons r rest ih =>
    rw [strings.fieldsCount, ih _ _ _ (asciiSpace_le_one r), countStarts]
    rcases asciiSpace_le_one r with h | h <;> rcases hw with h2 | h2 <;>
      first
      | (simp [h, h2]; done)
      | (simp [h, h2]; omega)

theorem fieldsCount_setBits (s : GoString) (n w b : Nat) :
    (strings.fieldsCount s n w b).2.2 < 128 ↔ b < 128 ∧ ∀ c ∈ s, c < 128 := by
  induction s generalizing n w b with
  | nil => simp [strings.fieldsCount]
  | cons r rest ih =>
    rw [strings.fieldsCount, ih]
    have := lor_lt_iff b r 7
    simp only [Nat.reducePow] at this
    rw [this]
    simp only [List.mem_cons, forall_eq_or_imp]
    tauto

theorem rangeLoop_ascii (fuel : Nat) (s : GoString) (i : Nat) (hf : s.length ≤ fuel)
    (h : ∀ c ∈ s, c < 128) : (utf8.rangeLoop fuel s i).map Prod.snd = s := by
  induction s generalizing fuel i with
  | nil => cases fuel <;> simp [utf8.rangeLoop]
  | cons c rest ih =>
    cases fuel with
    | zero => simp at hf
    | succ fuel =>
      have hc : c < 128 := h c (List.mem_cons_self _ _)
      have hd : utf8.DecodeRuneInString (c :: rest) = (c, 1) := by
        simp [utf8.DecodeRuneInString, hc]
      simp only [utf8.rangeLoop, hd]
      simp only [reduceCtorEq, if_false, List.drop_succ_cons, List.drop_zero, List.map_cons]
      rw [ih fuel (i + 1) (by simpa using hf) (fun c hc => h c (List.mem_cons_of_mem _ hc))]

theorem runes_ascii (s : GoString) (h : ∀ c ∈ s, c < 128) : utf8.runes s = s :=
  rangeLoop_ascii s.length s 0 (le_refl _) h

theorem skipSpaces_spec (l : GoString) (i : Nat) :
    (strings.skipSpaces l i).1.length ≤ l.length ∧
    (strings.skipSpaces l i).2 + (strings.skipSpaces l i).1.length = i + l.length ∧
    (match (strings.skipSpaces l i).1 with
      | [] => True
      | c :: _ => strings.asciiSpace c = 0) ∧
    countStarts (fun c => decide (strings.asciiSpace c = 1)) true (strings.skipSpaces l i).1 =
      countStarts (fun c => decide (strings.asciiSpace c = 1)) true l := by
  induction l generalizing i with
  | nil => simp [strings.skipSpaces]
  | cons c rest ih =>
    rcases asciiSpace_le_one c with h | h
    · simp [strings.skipSpaces, h]
    · obtain ⟨h1, h2, h3, h4⟩ := ih (i + 1)
      simp only [strings.skipSpaces, h]
      simp only [ne_eq, one_ne_zero, not_false_eq_true, if_true, List.length_cons]
      refine ⟨by omega, by omega, h3, ?_⟩
      rw [h4]
      simp [countStarts, h]

theorem fieldsFill_ok (s : GoString) (fuel : Nat) :
    ∀ (rest : GoString) (i fs na : Nat) (a : List GoString),
      rest.length < fuel → i + rest.length = s.length →
      (fs < i ∨ (fs = i ∧ (match rest with
        | [] => True
        | c :: _ => strings.asciiSpace c = 0))) →
      na + (if fs < i then
          countStarts (fun c => decide (strings.asciiSpace c = 1)) false rest + 1
        else countStarts (fun c => decide (strings.asciiSpace c = 1)) true rest) ≤ a.length →
      ∃ a2, strings.fieldsFill s fuel rest i fs na a = some a2 ∧ a2.length = a.length := by
  induction fuel with
  | zero => intro rest i fs na a hf; omega
  | succ fuel ih =>
    intro rest i fs na a hf hi hP hn
    cases rest with
    | nil =>
      simp only [List.length_nil, Nat.add_zero] at hi
      subst hi
      simp only [strings.fieldsFill]
      by_cases hlt : fs < s.length
      · simp only [hlt, if_true, countStarts] at hn ⊢
        have : na < a.length := by omega
        simp [strings.setIndex, this]
      · simp [hlt]
    | cons c rest2 =>
      simp only [List.length_cons] at hf hi
      rcases asciiSpace_le_one c with h | h
      · -- inside a field
        simp only [strings.fieldsFill, h, if_true]
        apply ih rest2 (i + 1) fs na a (by omega) (by omega) (Or.inl (by omega))
        have hlt : fs < i + 1 := by omega
        simp only [hlt, if_true]
        by_cases hlt2 : fs < i
        · simpa [hlt2, countStarts, h] using hn
        · simp only [hlt2, if_false, countStarts, h] at hn
          simp at hn
          omega
      · -- a space ends the field
        have hlt : fs < i := by
          rcases hP with hP | ⟨_, hP⟩
          · exact hP
          · simp only at hP
            omega
        simp only [hlt, if_true, countStarts, h] at hn
        simp at hn
        have hna : na < a.length := by omega
        obtain ⟨k1, k2, k3, k4⟩ := skipSpaces_spec rest2 (i + 1)
        simp only [strings.fieldsFill, h, strings.setIndex, hna, if_true]
        simp only [one_ne_zero, if_false]
        obtain ⟨a2, h1, h2⟩ := ih (strings.skipSpaces rest2 (i + 1)).1
          (strings.skipSpaces rest2 (i + 1)).2 (strings.skipSpaces rest2 (i + 1)).2 (na + 1)
          (a.set na ((s.take i).drop fs)) (by omega) (by omega) (Or.inr ⟨rfl, k3⟩)
          (by simp only [lt_self_iff_false, if_false, k4, List.length_set]; omega)
        exact ⟨a2, h1, by simpa using h2⟩

theorem Fields_ascii_length (s : GoString) (h : ∀ c ∈ s, c < 128) :
    ∃ a, strings.Fields s = some a ∧
      a.length = countStarts (fun c => decide (strings.asciiSpace c = 1)) true s := by
  have hb : ¬ 128 ≤ (strings.fieldsCount s 0 1 0).2.2 := by
    have := (fieldsCount_setBits s 0 1 0).2 ⟨by decide, h⟩
    omega
  have hn := fieldsCount_fst s 0 1 0 (Or.inr rfl)
  simp only [Nat.zero_add, decide_True] at hn
  obtain ⟨k1, k2, k3, k4⟩ := skipSpaces_spec s 0
  obtain ⟨a2, h1, h2⟩ := fieldsFill_ok s (s.length + 1) (strings.skipSpaces s 0).1
    (strings.skipSpaces s 0).2 (strings.skipSpaces s 0).2 0
    (List.replicate (strings.fieldsCount s 0 1 0).1 []) (by omega) (by omega)
    (Or.inr ⟨rfl, k3⟩)
    (by simp only [lt_self_iff_false, if_false, k4, List.length_replicate, hn]; omega)
  refine ⟨a2, ?_, ?_⟩
  · simp only [strings.Fields, hb, if_false]
    exact h1
  · rw [h2, List.length_replicate, hn]

theorem fieldsFuncLoop_count (f : Nat → Bool) (pairs : List (Nat × Nat)) :
    ∀ (start : Int) (spans : List (Nat × Nat)),
      (strings.fieldsFuncLoop f pairs start spans).1.length +
          (if 0 ≤ (strings.fieldsFuncLoop f pairs start spans).2 then 1 else 0) =
        spans.length + (if 0 ≤ start then 1 + countStarts f false (pairs.map Prod.snd)
          else countStarts f true (pairs.map Prod.snd)) := by
  induction pairs with
  | nil =>
    intro start spans
    simp only [strings.fieldsFuncLoop, List.map_nil, countStarts]
  | cons pr more ih =>
    intro start spans
    obtain ⟨e, rune⟩ := pr
    simp only [strings.fieldsFuncLoop, List.map_cons, countStarts]
    by_cases hf : f rune = true
    · by_cases hs : 0 ≤ start
      · have hneg : ¬ (0 ≤ -start - 1) := by omega
        simp only [hf, hs, if_true, ih, hneg, if_false, List.length_append, List.length_singleton]
        simp
        omega
      · simp only [hf, hs, if_true, if_false, ih]
        simp
    · have hf2 : f rune = false := by simpa using hf
      by_cases hs : 0 ≤ start
      · have hlt : ¬ start < 0 := by omega
        simp only [hf2, hs, hlt, if_true, if_false, ih, Bool.false_eq_true]
        simp
      · have hlt : start < 0 := by omega
        have he : (0 : Int) ≤ (e : Int) := Int.ofNat_nonneg e
        simp only [hf2, hs, hlt, if_true, if_false, ih, he, Bool.false_eq_true]
        simp

theorem FieldsFunc_length (s : GoString) (f : Nat → Bool) :
    (strings.FieldsFunc s f).length = countStarts f true (utf8.runes s) := by
  have h := fieldsFuncLoop_count f (utf8.rangeString s) (-1) []
  simp only [List.length_nil, Nat.zero_add] at h
  have hneg : ¬ ((0 : Int) ≤ -1) := by omega
  simp only [hneg, if_false] at h
  simp only [strings.FieldsFunc, List.length_map, utf8.runes]
  rw [← h]
  split <;> simp

theorem wordCount_eq_countStarts (s : GoString) :
    wordCount s = some ((countStarts unicode.IsSpace true (utf8.runes s) : Nat) : Int) := by
  by_cases hb : 128 ≤ (strings.fieldsCount s 0 1 0).2.2
  · simp [wordCount, strings.Fields, hb, FieldsFunc_length]
  · have hall : ∀ c ∈ s, c < 128 := ((fieldsCount_setBits s 0 1 0).1 (by omega)).2
    obtain ⟨a, h1, h2⟩ := Fields_ascii_length s hall
    rw [wordCount, h1, runes_ascii s hall]
    simp only [h2]
    rw [countStarts_congr unicode.IsSpace (fun c => decide (strings.asciiSpace c = 1)) s true
      (fun c hc => IsSpace_ascii c (hall c hc))]

theorem countStarts_eq_zero_iff (p : Nat → Bool) (l : List Nat) :
    countStarts p true l = 0 ↔ ∀ r ∈ l, p r = true := by
  induction l with
  | nil => simp [countStarts]
  | cons x xs ih =>
    by_cases hx : p x = true
    · simp [countStarts, hx, ih]
    · have hx2 : p x = false := by simpa using hx
      simp [countStarts, hx2]

theorem countStarts_space_append (p : Nat → Bool) (ws l : List Nat) (b : Bool)
    (h : ∀ r ∈ ws, p r = true) :
    countStarts p b (ws ++ l) = if ws = [] then countStarts p b l else countStarts p true l := by
  induction ws generalizing b with
  | nil => simp
  | cons w ws ih =>
    have hw : p w = true := h w (List.mem_cons_self _ _)
    have := ih true (fun r hr => h r (List.mem_cons_of_mem _ hr))
    simp only [ite_self] at this
    simp only [List.cons_append, countStarts, hw]
    simpa using this

theorem countStarts_append_space (p : Nat → Bool) (l ws : List Nat) (b : Bool)
    (h : ∀ r ∈ ws, p r = true) : countStarts p b (l ++ ws) = countStarts p b l := by
  induction l generalizing b with
  | nil =>
    rw [List.nil_append, ← List.append_nil ws, countStarts_space_append p ws [] b h]
    split <;> simp [countStarts]
  | cons x xs ih => simp [countStarts, ih]

theorem countStarts_middle (p : Nat → Bool) (l1 ws l2 : List Nat) (w : Nat) (b : Bool)
    (hw : p w = true) (h : ∀ r ∈ ws, p r = true) :
    countStarts p b (l1 ++ w :: (ws ++ l2)) = countStarts p b (l1 ++ w :: l2) := by
  induction l1 generalizing b with
  | nil =>
    simp only [List.nil_append, countStarts, hw, countStarts_space_append p ws l2 true h]
    simp
  | cons x xs ih => simp [countStarts, ih]

/-- C5: `wordCount(str)` is the number of words of `str`, the maximal runs of
runes that are not white space; it is 0 exactly when every rune of `str` is
white space (so also for the empty string); and white space added in front,
at the end, or next to white space already there does not change it. -/
theorem wordCount_counts_words (s : GoString) :
    wordCount s = some ((wordsOf s).length : Int) ∧
    (wordCount s = some 0 ↔ ∀ r ∈ utf8.runes s, unicode.IsSpace r = true) ∧
    (∀ (t : GoString) (ws : List Nat), (∀ r ∈ ws, unicode.IsSpace r = true) →
      (utf8.runes t = ws ++ utf8.runes s ∨ utf8.runes t = utf8.runes s ++ ws ∨
        ∃ l1 w l2, unicode.IsSpace w = true ∧ utf8.runes s = l1 ++ w :: l2 ∧
          utf8.runes t = l1 ++ w :: (ws ++ l2)) →
      wordCount t = wordCount s) := by
  refine ⟨?_, ?_, ?_⟩
  · rw [wordCount_eq_countStarts, wordsOf, length_words_eq_countStarts]
  · rw [wordCount_eq_countStarts, ← countStarts_eq_zero_iff]
    simp
  · intro t ws hws h
    rw [wordCount_eq_countStarts, wordCount_eq_countStarts]
    rcases h with h | h | ⟨l1, w, l2, hw, h1, h2⟩
    · rw [h, countStarts_space_append _ _ _ _ hws]
      split <;> rfl
    · rw [h, countStarts_append_space _ _ _ _ hws]
    · rw [h1, h2, countStarts_middle _ _ _ _ _ _ hw hws]

/-- C5 at `"a b"`, and at `"  a \t b\n"`, which adds white space to it. -/
theorem wordCount_counts_words_witness :
    wordCount (str "a b") = some 2 ∧ wordCount (str "  a \t b\n") = some 2 ∧
      wordCount (str "  a \t b\n") = some ((wordsOf (str "  a \t b\n")).length : Int) :=
  ⟨by decide, by decide, (wordCount_counts_words (str "  a \t b\n")).1⟩

end Readability
